import Mathlib

/-!
Shallow embedding of the arena static analyzer in `cmd/arenacheck/analyzer_final.go`
(the `AnalyzerFinal2` pass: `runFinal2`, `checkFunctionFinal2`, `findAllocation`,
`findAllocationRec`, `checkUseAfterFree`, `isPointerType`, `isGlobalVar`).

SSA values are identified by natural numbers.  A function carries:
* `defs`  — for each value id, the shape `findAllocationRec` dispatches on
  (the dynamic type of the `ssa.Value`: `UnOp`, `FieldAddr`, `IndexAddr`,
  `Phi`, `MakeInterface`, `Global`, or anything else);
* `tys`   — for each value id, its static type as seen by `isPointerType`;
* `blocks` — the instruction stream (`nil` blocks modelled as `none`).

Go maps are modelled as association lists where insertion prepends, so
`List.lookup` returns the most recently written binding (Go map overwrite
semantics).  The recursion of `findAllocationRec` is modelled with explicit
fuel; `findAllocation` supplies `defs.length + 1` fuel, and a theorem below
shows this fuel is sufficient (the visited set makes the walk terminate in
bounded steps, as the source relies on).
-/

namespace Arenacheck

/-- Static types, as consumed by `isPointerType` (`go/types`): a pointer type,
a named type with an underlying type, or any other (non-pointer) type. -/
inductive Ty where
  | pointer : Ty
  | named : Ty → Ty
  | basic : Ty
deriving DecidableEq, Repr

/-- Embedding of `isPointerType` from analyzer_final.go: true for `*types.Pointer`, recurses
through `*types.Named` via its underlying type, false otherwise. -/
def isPointerType : Ty → Bool
  | .pointer => true
  | .named t => isPointerType t
  | .basic => false

/-- The shape of an SSA value, i.e. the dynamic type that the `switch` in
`findAllocationRec` dispatches on.  `other` covers every value kind the switch
does not match (calls, parameters, constants, `Alloc` slots, ...), which fall
through to the default case. -/
inductive VDef where
  | unop (x : Nat)
  | fieldAddr (x : Nat)
  | indexAddr (x : Nat)
  | phi (edges : List Nat)
  | makeInterface (x : Nat)
  | global
  | other
deriving DecidableEq, Repr

/-- Static-callee information: `callee.String()` and `callee.Name()`,
as character lists. -/
structure CalleeInfo where
  fullName : List Char
  name : List Char
deriving DecidableEq, Repr

/-- Embedding of `strings.Contains haystack needle`. -/
def containsSub (s sub : List Char) : Bool :=
  s.tails.any fun t => sub.isPrefixOf t

/-- SSA instructions, restricted to the fields analyzer_final.go reads.
A `call` records the id of its result value, the static callee (if any),
the function-operand id and the argument ids; `store` records address and
stored value; `ret` its result values; `other` stands for any further
instruction kind, keeping only its operand list.  Every instruction carries
a source position. -/
inductive Instr where
  | call (v : Nat) (callee : Option CalleeInfo) (fnOp : Nat) (args : List Nat) (pos : Nat)
  | store (addr : Nat) (val : Nat) (pos : Nat)
  | ret (results : List Nat) (pos : Nat)
  | other (operands : List Nat) (pos : Nat)
deriving DecidableEq, Repr

/-- Embedding of `instr.Operands(nil)`: all value operands of an instruction.  For a call
this is the function operand followed by the arguments; for a store the
address and the value; for a return its results. -/
def Instr.operands : Instr → List Nat
  | .call _ _ fnOp args _ => fnOp :: args
  | .store addr val _ => [addr, val]
  | .ret results _ => results
  | .other ops _ => ops

/-- Embedding of `instr.Pos()`. -/
def Instr.pos : Instr → Nat
  | .call _ _ _ _ p => p
  | .store _ _ p => p
  | .ret _ p => p
  | .other _ p => p

/-- Embedding of `allocInfo` from analyzer_final.go: the owning arena (the arena value id,
`arenaInfo.value`), the allocation call value itself, and the allocation's
source position. -/
structure AllocInfo where
  arena : Nat
  value : Nat
  allocPos : Nat
deriving DecidableEq, Repr

/-- Diagnostic kinds.  The spec's data model lists five kinds; the code of
analyzer_final.go only ever constructs the first three. -/
inductive DiagKind where
  | escapeReturn
  | escapeGlobal
  | useAfterFree
  | doubleFree
  | escapeCapture
deriving DecidableEq, Repr

/-- A reported diagnostic: kind, reporting position, and the originating
allocation's position. -/
structure Diagnostic where
  kind : DiagKind
  pos : Nat
  allocPos : Nat
deriving DecidableEq, Repr

/-- The four maps built by the first pass of `checkFunctionFinal2`:
`arenas` (value ids of `arena.NewArena()` calls), `allocations`
(allocation call id → `allocInfo`), `storesTo` (address id → last stored
value id), and `freeInstrs` (instruction position `(block, index)` → freed
arena id). -/
structure TrackState where
  arenas : List Nat
  allocations : List (Nat × AllocInfo)
  storesTo : List (Nat × Nat)
  freeInstrs : List ((Nat × Nat) × Nat)
deriving DecidableEq, Repr

/-- First-pass handling of one `*ssa.Call` instruction (analyzer_final.go
lines 56–92): register `arena.NewArena` results as arenas, `arena.New[...]`
calls whose first argument is a tracked arena as allocations, and calls whose
name matches `Free` and whose first argument is a tracked arena as free
instructions. -/
def trackCall (bi ii : Nat) (s : TrackState) (v : Nat) (callee : Option CalleeInfo)
    (args : List Nat) (pos : Nat) : TrackState :=
  match callee with
  | none => s
  | some c =>
    let s :=
      if containsSub c.fullName ("arena.NewArena".toList) then
        { s with arenas := v :: s.arenas }
      else s
    let s :=
      if containsSub c.fullName ("arena.New[".toList) && args.length > 0 then
        match args with
        | arenaArg :: _ =>
          if s.arenas.contains arenaArg then
            { s with allocations :=
                (v, { arena := arenaArg, value := v, allocPos := pos }) :: s.allocations }
          else s
        | [] => s
      else s
    let s :=
      if containsSub c.fullName (".Free".toList)
          || (c.name == "Free".toList && args.length > 0) then
        match args with
        | arenaArg :: _ =>
          if s.arenas.contains arenaArg then
            { s with freeInstrs := ((bi, ii), arenaArg) :: s.freeInstrs }
          else s
        | [] => s
      else s
    s

/-- First-pass handling of one instruction: calls as in `trackCall`, and every
store records `storesTo[store.Addr] = store.Val`. -/
def trackInstr (bi ii : Nat) (s : TrackState) : Instr → TrackState
  | .call v callee _ args pos => trackCall bi ii s v callee args pos
  | .store addr val _ => { s with storesTo := (addr, val) :: s.storesTo }
  | _ => s

/-- First pass over one block. -/
def trackBlock (bi : Nat) (s : TrackState) (instrs : List Instr) : TrackState :=
  instrs.enum.foldl (fun s p => trackInstr bi p.1 s p.2) s

/-- The complete first pass of `checkFunctionFinal2` (lines 54–99). -/
def firstPass (blocks : List (List Instr)) : TrackState :=
  blocks.enum.foldl (fun s p => trackBlock p.1 s p.2) ⟨[], [], [], []⟩

/-- The shape of a value id: out-of-range ids behave like the default case. -/
def defOf (g : List VDef) (val : Nat) : VDef :=
  g.getD val .other

/-- Embedding of `findAllocationRec` (lines 150–195), with explicit fuel standing in for
the call stack.  The visited set is threaded through recursive calls exactly
as the shared mutable Go map is: checked on entry, extended before the direct
match, and every recursive call continues from the visited set left by the
previous one.  The result pairs the resolved allocation (if any) with the
final visited set. -/
def findAllocationRec (g : List VDef) (allocations : List (Nat × AllocInfo))
    (storesTo : List (Nat × Nat)) : Nat → List Nat → Nat → Option AllocInfo × List Nat
  | 0, visited, _ => (none, visited)
  | fuel + 1, visited, val =>
    if visited.contains val then (none, visited)
    else
      let vis := val :: visited
      match allocations.lookup val with
      | some alloc => (some alloc, vis)
      | none =>
        match defOf g val with
        | .unop x =>
          (match storesTo.lookup x with
           | some stored =>
             match findAllocationRec g allocations storesTo fuel vis stored with
             | (some alloc, vis2) => (some alloc, vis2)
             | (none, vis2) => findAllocationRec g allocations storesTo fuel vis2 x
           | none => findAllocationRec g allocations storesTo fuel vis x)
        | .fieldAddr x => findAllocationRec g allocations storesTo fuel vis x
        | .indexAddr x => findAllocationRec g allocations storesTo fuel vis x
        | .phi edges =>
          edges.foldl
            (fun acc edge =>
              match acc with
              | (some alloc, vis2) => (some alloc, vis2)
              | (none, vis2) => findAllocationRec g allocations storesTo fuel vis2 edge)
            (none, vis)
        | .makeInterface x => findAllocationRec g allocations storesTo fuel vis x
        | .global => (none, vis)
        | .other => (none, vis)

/-- Embedding of `findAllocation` (lines 145–148): run the recursion from an empty visited
set.  `defs.length + 1` fuel is sufficient, as proved below: each level of
recursion consumes one fresh in-range value id. -/
def findAllocation (g : List VDef) (allocations : List (Nat × AllocInfo))
    (storesTo : List (Nat × Nat)) (val : Nat) : Option AllocInfo :=
  (findAllocationRec g allocations storesTo (g.length + 1) [] val).1

/-- The static type of a value id (out-of-range ids get a non-pointer type). -/
def typeOf (tys : List Ty) (val : Nat) : Ty :=
  tys.getD val .basic

/-- Embedding of `isGlobalVar`: the value is an `*ssa.Global`. -/
def isGlobalVar (g : List VDef) (val : Nat) : Bool :=
  match defOf g val with
  | .global => true
  | _ => false

/-- One iteration of the operand loop in `checkUseAfterFree`: if the operand
traces to an allocation whose arena has been freed, produce a use-after-free
diagnostic at position `ipos`. -/
def uafOperandDiag (g : List VDef) (allocations : List (Nat × AllocInfo))
    (storesTo : List (Nat × Nat)) (freedArenas : List Nat) (ipos : Nat)
    (operand : Nat) : Option Diagnostic :=
  match findAllocation g allocations storesTo operand with
  | some alloc =>
    if freedArenas.contains alloc.arena then
      some { kind := .useAfterFree, pos := ipos, allocPos := alloc.allocPos }
    else none
  | none => none

/-- Embedding of `checkUseAfterFree` (lines 213–234): scan the instruction's operands in
order and report at most once, at the first operand that traces to an
allocation in a freed arena. -/
def checkUseAfterFree (g : List VDef) (allocations : List (Nat × AllocInfo))
    (storesTo : List (Nat × Nat)) (freedArenas : List Nat) (instr : Instr) :
    Option Diagnostic :=
  instr.operands.findSome? (uafOperandDiag g allocations storesTo freedArenas instr.pos)

/-- The return check (lines 117–128, with the `isPointerType` filter) and the
global-store check (lines 131–139, with no type filter) of the second-pass
instruction loop. -/
def escapeDiags (g : List VDef) (tys : List Ty) (allocations : List (Nat × AllocInfo))
    (storesTo : List (Nat × Nat)) (instr : Instr) : List Diagnostic :=
  match instr with
  | .ret results pos =>
    results.flatMap fun result =>
      match findAllocation g allocations storesTo result with
      | some alloc =>
        if isPointerType (typeOf tys result) then
          [{ kind := .escapeReturn, pos := pos, allocPos := alloc.allocPos }]
        else []
      | none => []
  | .store addr val pos =>
    if isGlobalVar g addr then
      match findAllocation g allocations storesTo val with
      | some alloc => [{ kind := .escapeGlobal, pos := pos, allocPos := alloc.allocPos }]
      | none => []
    else []
  | _ => []

/-- The body of the second-pass instruction loop after the freed-arena update
(lines 111–139): the use-after-free check (only when some arena is already
freed), then the escape checks. -/
def instrDiags (g : List VDef) (tys : List Ty) (allocations : List (Nat × AllocInfo))
    (storesTo : List (Nat × Nat)) (freedArenas : List Nat) (instr : Instr) :
    List Diagnostic :=
  (if freedArenas.length > 0 then
      (checkUseAfterFree g allocations storesTo freedArenas instr).toList
    else [])
  ++ escapeDiags g tys allocations storesTo instr

/-- The second-pass sweep over one block's instructions (lines 105–140),
starting at instruction index `ii` with freed-arena set `freedArenas`:
each free instruction first marks its arena freed, then the instruction is
checked. -/
def sweepInstrs (g : List VDef) (tys : List Ty) (allocations : List (Nat × AllocInfo))
    (storesTo : List (Nat × Nat)) (freeInstrs : List ((Nat × Nat) × Nat))
    (bi : Nat) : Nat → List Nat → List Instr → List Diagnostic
  | _, _, [] => []
  | ii, freedArenas, instr :: rest =>
    let freedArenas :=
      match freeInstrs.lookup (bi, ii) with
      | some arena => arena :: freedArenas
      | none => freedArenas
    instrDiags g tys allocations storesTo freedArenas instr
      ++ sweepInstrs g tys allocations storesTo freeInstrs bi (ii + 1) freedArenas rest

/-- The complete second pass (lines 101–141): the freed-arena set is created
afresh, empty, at the entry of every block. -/
def secondPass (g : List VDef) (tys : List Ty) (st : TrackState)
    (blocks : List (List Instr)) : List Diagnostic :=
  blocks.enum.flatMap fun p =>
    sweepInstrs g tys st.allocations st.storesTo st.freeInstrs p.1 0 [] p.2

/-- A source function as consumed by the analyzer: its blocks (a `nil` block
list is `none`), its value-shape table and its type table. -/
structure Fn where
  blocks : Option (List (List Instr))
  defs : List VDef
  tys : List Ty
deriving DecidableEq, Repr

/-- Embedding of `checkFunctionFinal2`: first pass, then second pass. -/
def checkFunctionFinal2 (fn : Fn) (blocks : List (List Instr)) : List Diagnostic :=
  secondPass fn.defs fn.tys (firstPass blocks) blocks

/-- Embedding of `runFinal2`: analyze every function, silently skipping `nil` functions and
functions with a `nil` block list; diagnostics accumulate in program order. -/
def runFinal2 (fns : List (Option Fn)) : List Diagnostic :=
  fns.flatMap fun fn? =>
    match fn? with
    | none => []
    | some fn =>
      match fn.blocks with
      | none => []
      | some blocks => checkFunctionFinal2 fn blocks

end Arenacheck

namespace Arenacheck

/-! ## Concrete programs

Small SSA functions, written as inputs to the embedded analyzer, realizing
the spec's test scenarios.  Value ids index into `defs`/`tys`; callee data
mirrors what `callee.String()` / `callee.Name()` produce for the arena API. -/

/-- Callee data of `arena.NewArena`. -/
def cNewArena : CalleeInfo := ⟨"arena.NewArena".toList, "NewArena".toList⟩

/-- Callee data of an instantiated `arena.New[T]`. -/
def cNew : CalleeInfo := ⟨"arena.New[go.shape.int]".toList, "New".toList⟩

/-- Callee data of `(*arena.Arena).Free`. -/
def cFree : CalleeInfo := ⟨"(*arena.Arena).Free".toList, "Free".toList⟩

/-- Scenario D — use-after-free: `r = NewArena(); v = New(r); r.Free(); use(v)`.
Value 0 is the arena, value 1 the allocation; the final instruction uses
value 1. -/
def fnD : Fn :=
  { blocks := some [[ .call 0 (some cNewArena) 100 [] 10,
                      .call 1 (some cNew) 101 [0] 11,
                      .call 2 (some cFree) 102 [0] 12,
                      .other [1] 13 ]],
    defs := [.other, .other, .other],
    tys := [.basic, .pointer, .basic] }

/-- Scenario E — double free: `r = NewArena(); r.Free(); r.Free()`. -/
def fnE : Fn :=
  { blocks := some [[ .call 0 (some cNewArena) 100 [] 10,
                      .call 1 (some cFree) 101 [0] 11,
                      .call 2 (some cFree) 102 [0] 12 ]],
    defs := [.other, .other, .other],
    tys := [.basic, .basic, .basic] }

/-- Scenario F — global escape: `r = NewArena(); v = New(r); globalVar = v`,
with `v` of pointer type; value 2 is the global. -/
def fnF : Fn :=
  { blocks := some [[ .call 0 (some cNewArena) 100 [] 10,
                      .call 1 (some cNew) 101 [0] 11,
                      .store 2 1 12 ]],
    defs := [.other, .other, .global],
    tys := [.basic, .pointer, .pointer] }

/-- A global store of a value-typed (non-pointer) value derived from an
allocation: value 2 is a scalar load `*v` of the allocation value 1, stored
to the global value 3. -/
def fnG : Fn :=
  { blocks := some [[ .call 0 (some cNewArena) 100 [] 10,
                      .call 1 (some cNew) 101 [0] 11,
                      .other [1] 12,
                      .store 3 2 13 ]],
    defs := [.other, .other, .unop 1, .global],
    tys := [.basic, .pointer, .basic, .basic] }

/-- Scenario A — direct return of the pointer-typed allocation value 1. -/
def fnA : Fn :=
  { blocks := some [[ .call 0 (some cNewArena) 100 [] 10,
                      .call 1 (some cNew) 101 [0] 11,
                      .ret [1] 12 ]],
    defs := [.other, .other],
    tys := [.basic, .pointer] }

/-- Scenario C — safe value return: value 3 is the scalar field load
`v.field` (a `UnOp` of the `FieldAddr` value 2) of the allocation value 1,
and is returned with a non-pointer type. -/
def fnC : Fn :=
  { blocks := some [[ .call 0 (some cNewArena) 100 [] 10,
                      .call 1 (some cNew) 101 [0] 11,
                      .other [1] 12,
                      .other [2] 13,
                      .ret [3] 14 ]],
    defs := [.other, .other, .fieldAddr 1, .unop 2],
    tys := [.basic, .pointer, .pointer, .basic] }

/-- Cross-block use-after-free: the free happens in block 0, the use of the
allocation value 1 in block 1. -/
def fnX : Fn :=
  { blocks := some [[ .call 0 (some cNewArena) 100 [] 10,
                      .call 1 (some cNew) 101 [0] 11,
                      .call 2 (some cFree) 102 [0] 12 ],
                    [ .other [1] 20 ]],
    defs := [.other, .other, .other],
    tys := [.basic, .pointer, .basic] }

/-- A merge of a literal nil (value 2) with the allocation value 1: value 3
is a phi with edges `[2, 1]`, returned with pointer type. -/
def fnP : Fn :=
  { blocks := some [[ .call 0 (some cNewArena) 100 [] 10,
                      .call 1 (some cNew) 101 [0] 11 ],
                    [ .other [] 20 ],
                    [ .other [2, 1] 29,
                      .ret [3] 30 ]],
    defs := [.other, .other, .other, .phi [2, 1]],
    tys := [.basic, .pointer, .pointer, .pointer] }

/-- A cyclic value graph: values 0 and 1 are phis pointing at each other;
value 0 is returned with pointer type, and no arena exists. -/
def fnCyc : Fn :=
  { blocks := some [[ .other [1] 10, .other [0] 11, .ret [0] 12 ]],
    defs := [.phi [1], .phi [0]],
    tys := [.pointer, .pointer] }

/-- A region-allocate whose region operand (value 0, a parameter) was not
created in this function: `arena.New` is called on an untracked arena. -/
def fnH : Fn :=
  { blocks := some [[ .call 1 (some cNew) 101 [0] 11,
                      .ret [1] 12 ]],
    defs := [.other, .other],
    tys := [.basic, .pointer] }

/-- Two stores to the local slot 5: first the allocation value 1, then (in a
later block, after the load instruction) the unrelated value 4.  Value 6 is
the load `*slot5` and is returned with pointer type. -/
def fnSa : Fn :=
  { blocks := some [[ .call 0 (some cNewArena) 100 [] 10,
                      .call 1 (some cNew) 101 [0] 11,
                      .store 5 1 12,
                      .other [5] 13 ],
                    [ .store 5 4 20,
                      .ret [6] 21 ]],
    defs := [.other, .other, .other, .other, .other, .other, .unop 5],
    tys := [.basic, .pointer, .basic, .basic, .pointer, .basic, .pointer] }

/-- As `fnSa` with the two stores swapped: the last store to slot 5 (again
after the load in program order) is the allocation value 1. -/
def fnSb : Fn :=
  { blocks := some [[ .call 0 (some cNewArena) 100 [] 10,
                      .call 1 (some cNew) 101 [0] 11,
                      .store 5 4 12,
                      .other [5] 13 ],
                    [ .store 5 1 20,
                      .ret [6] 21 ]],
    defs := [.other, .other, .other, .other, .other, .other, .unop 5],
    tys := [.basic, .pointer, .basic, .basic, .pointer, .basic, .pointer] }

/-- A freed-arena use whose instruction has three operands: value 7 (unknown)
followed by the offending allocation value 1 twice. -/
def fnW : Fn :=
  { blocks := some [[ .call 0 (some cNewArena) 100 [] 10,
                      .call 1 (some cNew) 101 [0] 11,
                      .call 2 (some cFree) 102 [0] 12,
                      .other [7, 1, 1] 13 ]],
    defs := [.other, .other, .other],
    tys := [.basic, .pointer, .basic] }

end Arenacheck

namespace Arenacheck

/-! ## Basic lemmas about the embedded operations -/

theorem exists_of_findSome?_eq_some {α β : Type} {l : List α} {f : α → Option β} {b : β}
    (h : l.findSome? f = some b) : ∃ a ∈ l, f a = some b := by
  induction l with
  | nil => simp [List.findSome?] at h
  | cons x xs ih =>
    rw [List.findSome?] at h
    cases hx : f x with
    | some v =>
      rw [hx] at h
      simp only [Option.some.injEq] at h
      exact ⟨x, by simp, by rw [hx, h]⟩
    | none =>
      rw [hx] at h
      obtain ⟨a, ha, hfa⟩ := ih h
      exact ⟨a, by simp [ha], hfa⟩

theorem findSome?_eq_some_of_mem {α β : Type} {l : List α} {f : α → Option β} {b : β}
    {pre : List α} {a : α} {post : List α}
    (hl : l = pre ++ a :: post) (hpre : ∀ x ∈ pre, f x = none) (ha : f a = some b) :
    l.findSome? f = some b := by
  subst hl
  induction pre with
  | nil => rw [List.nil_append, List.findSome?, ha]
  | cons y ys ih =>
    rw [List.cons_append, List.findSome?, hpre y (by simp)]
    exact ih fun x hx => hpre x (by simp [hx])

/-- Inversion of the per-operand use-after-free test. -/
theorem uafOperandDiag_eq_some {g : List VDef} {a : List (Nat × AllocInfo)}
    {s : List (Nat × Nat)} {freed : List Nat} {p o : Nat} {d : Diagnostic} :
    uafOperandDiag g a s freed p o = some d ↔
      ∃ alloc, findAllocation g a s o = some alloc ∧ freed.contains alloc.arena = true
        ∧ d = ⟨.useAfterFree, p, alloc.allocPos⟩ := by
  unfold uafOperandDiag
  cases hf : findAllocation g a s o with
  | none => simp
  | some alloc =>
    by_cases hc : freed.contains alloc.arena <;> simp [hc, eq_comm]

/-- Inversion of `checkUseAfterFree`: a reported diagnostic comes from some
operand tracing to an allocation in a freed arena, has kind use-after-free,
and can only arise when the freed set is non-empty. -/
theorem checkUseAfterFree_eq_some {g : List VDef} {a : List (Nat × AllocInfo)}
    {s : List (Nat × Nat)} {freed : List Nat} {instr : Instr} {d : Diagnostic}
    (h : checkUseAfterFree g a s freed instr = some d) :
    d.kind = .useAfterFree ∧ freed ≠ []
      ∧ ∃ op ∈ instr.operands, ∃ alloc, findAllocation g a s op = some alloc
          ∧ freed.contains alloc.arena = true
          ∧ d = ⟨.useAfterFree, instr.pos, alloc.allocPos⟩ := by
  obtain ⟨op, hop, hval⟩ := exists_of_findSome?_eq_some h
  obtain ⟨alloc, hfind, hcont, hd⟩ := uafOperandDiag_eq_some.mp hval
  refine ⟨by rw [hd], ?_, op, hop, alloc, hfind, hcont, hd⟩
  intro hfreed
  rw [hfreed] at hcont
  simp at hcont

/-- The step function of the phi-edge loop in `findAllocationRec`, abstracted
over the recursive call. -/
def phiStep (f : List Nat → Nat → Option AllocInfo × List Nat) :
    Option AllocInfo × List Nat → Nat → Option AllocInfo × List Nat :=
  fun acc edge =>
    match acc with
    | (some alloc, vis2) => (some alloc, vis2)
    | (none, vis2) => f vis2 edge

theorem phiFold_invariant {f : List Nat → Nat → Option AllocInfo × List Nat}
    {P : Option AllocInfo × List Nat → Prop}
    (hstep : ∀ vis e, P (none, vis) → P (f vis e)) :
    ∀ (edges : List Nat) (acc : Option AllocInfo × List Nat), P acc →
      P (edges.foldl (phiStep f) acc) := by
  intro edges
  induction edges with
  | nil => intro acc h; simpa using h
  | cons e es ih =>
    intro acc h
    rcases acc with ⟨o, vis⟩
    rw [List.foldl_cons]
    cases o with
    | none => exact ih _ (hstep vis e h)
    | some a => exact ih _ h

theorem phiFold_congr {f₁ f₂ : List Nat → Nat → Option AllocInfo × List Nat}
    {P : List Nat → Prop}
    (hpres : ∀ vis e, P vis → P (f₁ vis e).2)
    (heq : ∀ vis e, P vis → f₁ vis e = f₂ vis e) :
    ∀ (edges : List Nat) (o : Option AllocInfo) (vis : List Nat), P vis →
      edges.foldl (phiStep f₁) (o, vis) = edges.foldl (phiStep f₂) (o, vis) := by
  intro edges
  induction edges with
  | nil => intros; rfl
  | cons e es ih =>
    intro o vis h
    rw [List.foldl_cons, List.foldl_cons]
    cases o with
    | some a => exact ih _ _ h
    | none =>
      have he := heq vis e h
      have hp := hpres vis e h
      show es.foldl (phiStep f₁) (f₁ vis e) = es.foldl (phiStep f₂) (f₂ vis e)
      rw [← he]
      rcases hf : f₁ vis e with ⟨o2, vis2⟩
      have hp2 : P vis2 := by rw [hf] at hp; exact hp
      exact ih _ _ hp2

theorem phiFold_some {f : List Nat → Nat → Option AllocInfo × List Nat}
    (edges : List Nat) (x : AllocInfo) (vis : List Nat) :
    edges.foldl (phiStep f) (some x, vis) = (some x, vis) := by
  induction edges with
  | nil => rfl
  | cons e es ih => rw [List.foldl_cons]; exact ih

end Arenacheck


namespace Arenacheck

/-- The visited set only grows (the input set is a suffix of the output set),
and it stays duplicate-free: a value is inserted only after the membership
test failed. -/
theorem findAllocationRec_suffix_nodup (g : List VDef) (a : List (Nat × AllocInfo))
    (s : List (Nat × Nat)) :
    ∀ (fuel : Nat) (visited : List Nat) (val : Nat),
      visited <:+ (findAllocationRec g a s fuel visited val).2
      ∧ (visited.Nodup → (findAllocationRec g a s fuel visited val).2.Nodup) := by
  intro fuel
  induction fuel with
  | zero =>
    intro visited val
    exact ⟨List.suffix_refl _, fun h => h⟩
  | succ fuel ih =>
    intro visited val
    by_cases hc : visited.contains val = true
    · simp only [findAllocationRec]
      rw [if_pos hc]
      exact ⟨List.suffix_refl _, fun h => h⟩
    · have hnotmem : val ∉ visited := by simpa using hc
      have hvis : visited <:+ val :: visited := List.suffix_cons val visited
      have hvisnd : visited.Nodup → (val :: visited).Nodup :=
        fun h => List.nodup_cons.mpr ⟨hnotmem, h⟩
      simp only [findAllocationRec]
      rw [if_neg hc]
      cases hl : List.lookup val a with
      | some alloc =>
        exact ⟨hvis, hvisnd⟩
      | none =>
        dsimp only
        cases hd : defOf g val with
        | unop x =>
          dsimp only
          cases hs : List.lookup x s with
          | none =>
            have h1 := ih (val :: visited) x
            exact ⟨hvis.trans h1.1, fun h => h1.2 (hvisnd h)⟩
          | some stored =>
            dsimp only
            rcases heq : findAllocationRec g a s fuel (val :: visited) stored with ⟨o, vis2⟩
            have h1 := ih (val :: visited) stored
            rw [heq] at h1
            cases o with
            | some alloc =>
              exact ⟨hvis.trans h1.1, fun h => h1.2 (hvisnd h)⟩
            | none =>
              have h2 := ih vis2 x
              exact ⟨(hvis.trans h1.1).trans h2.1, fun h => h2.2 (h1.2 (hvisnd h))⟩
        | fieldAddr x =>
          have h1 := ih (val :: visited) x
          exact ⟨hvis.trans h1.1, fun h => h1.2 (hvisnd h)⟩
        | indexAddr x =>
          have h1 := ih (val :: visited) x
          exact ⟨hvis.trans h1.1, fun h => h1.2 (hvisnd h)⟩
        | phi edges =>
          have hP := @phiFold_invariant
            (findAllocationRec g a s fuel)
            (fun r => (val :: visited) <:+ r.2 ∧ ((val :: visited).Nodup → r.2.Nodup))
            (fun vis2 e h2 => by
              have h3 := ih vis2 e
              exact ⟨h2.1.trans h3.1, fun h => h3.2 (h2.2 h)⟩)
            edges (none, val :: visited) ⟨List.suffix_refl _, fun h => h⟩
          exact ⟨hvis.trans hP.1, fun h => hP.2 (hvisnd h)⟩
        | makeInterface x =>
          have h1 := ih (val :: visited) x
          exact ⟨hvis.trans h1.1, fun h => h1.2 (hvisnd h)⟩
        | global =>
          exact ⟨hvis, hvisnd⟩
        | other =>
          exact ⟨hvis, hvisnd⟩

end Arenacheck

namespace Arenacheck

/-- Number of in-range value ids in the visited set: the measure that bounds
the recursion depth of `findAllocationRec`. -/
def inRangeCount (g : List VDef) (visited : List Nat) : Nat :=
  (visited.filter fun v => decide (v < g.length)).length

theorem inRangeCount_le (g : List VDef) {visited : List Nat} (h : visited.Nodup) :
    inRangeCount g visited ≤ g.length := by
  have hnd : (visited.filter fun v => decide (v < g.length)).Nodup := h.filter _
  have hsub : (visited.filter fun v => decide (v < g.length)).toFinset ⊆
      Finset.range g.length := by
    intro x hx
    rw [List.mem_toFinset] at hx
    have hmem := List.of_mem_filter hx
    simp only [decide_eq_true_eq] at hmem
    simpa using hmem
  calc inRangeCount g visited
      = (visited.filter fun v => decide (v < g.length)).toFinset.card :=
        (List.toFinset_card_of_nodup hnd).symm
    _ ≤ (Finset.range g.length).card := Finset.card_le_card hsub
    _ = g.length := Finset.card_range _

theorem inRangeCount_cons_lt (g : List VDef) (visited : List Nat) {val : Nat}
    (h : val < g.length) :
    inRangeCount g (val :: visited) = inRangeCount g visited + 1 := by
  simp [inRangeCount, List.filter_cons, h]

theorem inRangeCount_mono (g : List VDef) {v1 v2 : List Nat} (h : v1 <:+ v2) :
    inRangeCount g v1 ≤ inRangeCount g v2 :=
  List.Sublist.length_le (List.Sublist.filter _ h.sublist)

theorem lt_length_of_defOf_ne_other {g : List VDef} {val : Nat}
    (h : defOf g val ≠ .other) : val < g.length := by
  by_contra hlt
  exact h (by unfold defOf; rw [List.getD_eq_default]; omega)

/-- Fuel-independence of `findAllocationRec`: any two fuel amounts that cover
the number of not-yet-visited in-range values give the same result.  This is
the termination argument the Go code relies on: each level of recursion marks
one fresh value visited, so `g.length + 1` stack frames always suffice. -/
theorem findAllocationRec_fuel_congr (g : List VDef) (a : List (Nat × AllocInfo))
    (s : List (Nat × Nat)) :
    ∀ (fuel₁ fuel₂ : Nat) (visited : List Nat) (val : Nat),
      visited.Nodup →
      g.length + 1 ≤ fuel₁ + inRangeCount g visited →
      g.length + 1 ≤ fuel₂ + inRangeCount g visited →
      findAllocationRec g a s fuel₁ visited val
        = findAllocationRec g a s fuel₂ visited val := by
  intro fuel₁
  induction fuel₁ with
  | zero =>
    intro fuel₂ visited val hnd h1 h2
    exfalso
    have hle := inRangeCount_le g hnd
    omega
  | succ fuel₁ ih =>
    intro fuel₂ visited val hnd h1 h2
    cases fuel₂ with
    | zero =>
      exfalso
      have hle := inRangeCount_le g hnd
      omega
    | succ fuel₂ =>
      by_cases hc : visited.contains val = true
      · simp only [findAllocationRec]
        rw [if_pos hc, if_pos hc]
      · simp only [findAllocationRec]
        rw [if_neg hc, if_neg hc]
        cases hl : List.lookup val a with
        | some alloc => rfl
        | none =>
          dsimp only
          by_cases hrange : val < g.length
          case neg =>
            have hdef : defOf g val = .other := by
              unfold defOf
              rw [List.getD_eq_default]
              omega
            rw [hdef]
          case pos =>
            have hnotmem : val ∉ visited := by simpa using hc
            have hnd' : (val :: visited).Nodup := List.nodup_cons.mpr ⟨hnotmem, hnd⟩
            have hcount : inRangeCount g (val :: visited) = inRangeCount g visited + 1 :=
              inRangeCount_cons_lt g visited hrange
            have h1' : g.length + 1 ≤ fuel₁ + inRangeCount g (val :: visited) := by omega
            have h2' : g.length + 1 ≤ fuel₂ + inRangeCount g (val :: visited) := by omega
            cases hd : defOf g val with
            | unop x =>
              dsimp only
              cases hs : List.lookup x s with
              | none => exact ih fuel₂ _ x hnd' h1' h2'
              | some stored =>
                dsimp only
                have heq := ih fuel₂ (val :: visited) stored hnd' h1' h2'
                rw [heq]
                rcases hres : findAllocationRec g a s fuel₂ (val :: visited) stored
                  with ⟨o, vis2⟩
                cases o with
                | some alloc => rfl
                | none =>
                  have hsuf := (findAllocationRec_suffix_nodup g a s fuel₂
                    (val :: visited) stored).1
                  have hnd2 := (findAllocationRec_suffix_nodup g a s fuel₂
                    (val :: visited) stored).2 hnd'
                  rw [hres] at hsuf hnd2
                  dsimp only at hsuf hnd2
                  have hmono := inRangeCount_mono g hsuf
                  exact ih fuel₂ vis2 x hnd2 (by omega) (by omega)
            | fieldAddr x => exact ih fuel₂ _ x hnd' h1' h2'
            | indexAddr x => exact ih fuel₂ _ x hnd' h1' h2'
            | phi edges =>
              refine @phiFold_congr
                (findAllocationRec g a s fuel₁)
                (findAllocationRec g a s fuel₂)
                (fun vis => vis.Nodup ∧ g.length + 1 ≤ fuel₁ + inRangeCount g vis
                  ∧ g.length + 1 ≤ fuel₂ + inRangeCount g vis)
                ?_ ?_ edges none (val :: visited) ⟨hnd', h1', h2'⟩
              · intro vis e hP
                obtain ⟨hn, hf1, hf2⟩ := hP
                have hsuf := (findAllocationRec_suffix_nodup g a s fuel₁ vis e).1
                have hnd2 := (findAllocationRec_suffix_nodup g a s fuel₁ vis e).2 hn
                have hmono := inRangeCount_mono g hsuf
                exact ⟨hnd2, by omega, by omega⟩
              · intro vis e hP
                exact ih fuel₂ vis e hP.1 hP.2.1 hP.2.2
            | makeInterface x => exact ih fuel₂ _ x hnd' h1' h2'
            | global => rfl
            | other => rfl

end Arenacheck

namespace Arenacheck

/-- When resolution returns `none`, every value it visited along the way
either was already visited or is not a tracked allocation: a successful
direct match always propagates to the overall result. -/
theorem findAllocationRec_none_lookup (g : List VDef) (a : List (Nat × AllocInfo))
    (s : List (Nat × Nat)) :
    ∀ (fuel : Nat) (visited : List Nat) (val : Nat),
      (findAllocationRec g a s fuel visited val).1 = none →
      ∀ w ∈ (findAllocationRec g a s fuel visited val).2,
        w ∈ visited ∨ List.lookup w a = none := by
  intro fuel
  induction fuel with
  | zero =>
    intro visited val _ w hw
    exact Or.inl hw
  | succ fuel ih =>
    intro visited val
    by_cases hc : visited.contains val = true
    · simp only [findAllocationRec]
      rw [if_pos hc]
      intro _ w hw
      exact Or.inl hw
    · simp only [findAllocationRec]
      rw [if_neg hc]
      cases hl : List.lookup val a with
      | some alloc =>
        intro hres
        exact absurd hres (by simp)
      | none =>
        dsimp only
        have hval : ∀ w, w ∈ (val :: visited) → w ∈ visited ∨ List.lookup w a = none := by
          intro w hw
          rcases List.mem_cons.mp hw with h | h
          · subst h; exact Or.inr hl
          · exact Or.inl h
        cases hd : defOf g val with
        | unop x =>
          dsimp only
          cases hs : List.lookup x s with
          | none =>
            intro hres w hw
            rcases ih (val :: visited) x hres w hw with h | h
            · exact hval w h
            · exact Or.inr h
          | some stored =>
            dsimp only
            rcases hres1 : findAllocationRec g a s fuel (val :: visited) stored
              with ⟨o, vis2⟩
            cases o with
            | some alloc =>
              intro hres
              exact absurd hres (by simp)
            | none =>
              intro hres w hw
              rcases ih vis2 x hres w hw with h | h
              · have h1 := ih (val :: visited) stored (by rw [hres1]) w
                  (by rw [hres1]; exact h)
                rcases h1 with h1 | h1
                · exact hval w h1
                · exact Or.inr h1
              · exact Or.inr h
        | fieldAddr x =>
          intro hres w hw
          rcases ih (val :: visited) x hres w hw with h | h
          · exact hval w h
          · exact Or.inr h
        | indexAddr x =>
          intro hres w hw
          rcases ih (val :: visited) x hres w hw with h | h
          · exact hval w h
          · exact Or.inr h
        | phi edges =>
          exact @phiFold_invariant
            (findAllocationRec g a s fuel)
            (fun r => r.1 = none → ∀ w ∈ r.2, w ∈ visited ∨ List.lookup w a = none)
            (fun vis2 e hP hres w hw => by
              rcases ih vis2 e hres w hw with h | h
              · exact hP rfl w h
              · exact Or.inr h)
            edges (none, val :: visited) (fun _ w hw => hval w hw)
        | makeInterface x =>
          intro hres w hw
          rcases ih (val :: visited) x hres w hw with h | h
          · exact hval w h
          · exact Or.inr h
        | global =>
          intro _ w hw
          exact hval w hw
        | other =>
          intro _ w hw
          exact hval w hw

/-- With no tracked allocations, resolution always returns `none`. -/
theorem findAllocationRec_nil_allocs (g : List VDef) (s : List (Nat × Nat)) :
    ∀ (fuel : Nat) (visited : List Nat) (val : Nat),
      (findAllocationRec g [] s fuel visited val).1 = none := by
  intro fuel
  induction fuel with
  | zero => intro visited val; rfl
  | succ fuel ih =>
    intro visited val
    by_cases hc : visited.contains val = true
    · simp only [findAllocationRec]
      rw [if_pos hc]
    · simp only [findAllocationRec]
      rw [if_neg hc]
      rw [List.lookup_nil]
      dsimp only
      cases hd : defOf g val with
      | unop x =>
        dsimp only
        cases hs : List.lookup x s with
        | none => exact ih _ x
        | some stored =>
          dsimp only
          rcases hres : findAllocationRec g [] s fuel (val :: visited) stored
            with ⟨o, vis2⟩
          cases o with
          | some alloc =>
            have hcontra := ih (val :: visited) stored
            rw [hres] at hcontra
            exact absurd hcontra (by simp)
          | none => exact ih vis2 x
      | fieldAddr x => exact ih _ x
      | indexAddr x => exact ih _ x
      | phi edges =>
        exact @phiFold_invariant
          (findAllocationRec g [] s fuel)
          (fun r => r.1 = none)
          (fun vis2 e _ => ih vis2 e)
          edges (none, val :: visited) rfl
      | makeInterface x => exact ih _ x
      | global => rfl
      | other => rfl

end Arenacheck

namespace Arenacheck

/-- Membership in the guarded use-after-free part of the per-instruction
diagnostics. -/
theorem mem_uafGuard {g : List VDef} {a : List (Nat × AllocInfo)} {s : List (Nat × Nat)}
    {freed : List Nat} {instr : Instr} {d : Diagnostic} :
    (d ∈ if freed.length > 0 then (checkUseAfterFree g a s freed instr).toList else [])
    ↔ checkUseAfterFree g a s freed instr = some d := by
  by_cases h : freed.length > 0
  · rw [if_pos h]
    simp
  · rw [if_neg h]
    simp only [List.not_mem_nil, false_iff]
    intro hc
    apply (checkUseAfterFree_eq_some hc).2.1
    cases freed with
    | nil => rfl
    | cons x xs => simp at h

/-- Every diagnostic an instruction produces has one of the three kinds the
code constructs. -/
theorem instrDiags_kinds {g : List VDef} {tys : List Ty} {a : List (Nat × AllocInfo)}
    {s : List (Nat × Nat)} {freed : List Nat} {instr : Instr} {d : Diagnostic}
    (h : d ∈ instrDiags g tys a s freed instr) :
    d.kind = .useAfterFree ∨ d.kind = .escapeReturn ∨ d.kind = .escapeGlobal := by
  unfold instrDiags at h
  rw [List.mem_append] at h
  rcases h with h | h
  · exact Or.inl ((checkUseAfterFree_eq_some (mem_uafGuard.mp h)).1)
  · unfold escapeDiags at h
    cases instr with
    | ret results pos =>
      rw [List.mem_flatMap] at h
      obtain ⟨r, hr, hd⟩ := h
      rcases hf : findAllocation g a s r with _ | alloc
      · rw [hf] at hd; simp at hd
      · rw [hf] at hd
        dsimp only at hd
        by_cases hp : isPointerType (typeOf tys r) = true
        · rw [if_pos hp] at hd
          simp at hd
          subst hd
          exact Or.inr (Or.inl rfl)
        · rw [if_neg hp] at hd; simp at hd
    | store addr v pos =>
      dsimp only at h
      by_cases hg : isGlobalVar g addr = true
      · rw [if_pos hg] at h
        rcases hf : findAllocation g a s v with _ | alloc
        · rw [hf] at h; simp at h
        · rw [hf] at h
          simp at h
          subst h
          exact Or.inr (Or.inr rfl)
      · rw [if_neg hg] at h; simp at h
    | call v callee fnOp args pos => simp at h
    | other ops pos => simp at h

theorem sweepInstrs_kinds {g : List VDef} {tys : List Ty} {a : List (Nat × AllocInfo)}
    {s : List (Nat × Nat)} {fi : List ((Nat × Nat) × Nat)} {bi : Nat} :
    ∀ {instrs : List Instr} {ii : Nat} {freed : List Nat} {d : Diagnostic},
      d ∈ sweepInstrs g tys a s fi bi ii freed instrs →
      d.kind = .useAfterFree ∨ d.kind = .escapeReturn ∨ d.kind = .escapeGlobal := by
  intro instrs
  induction instrs with
  | nil =>
    intro ii freed d h
    simp [sweepInstrs] at h
  | cons instr rest ih =>
    intro ii freed d h
    simp only [sweepInstrs] at h
    rw [List.mem_append] at h
    rcases h with h | h
    · exact instrDiags_kinds h
    · exact ih h

theorem runFinal2_kinds {fns : List (Option Fn)} {d : Diagnostic}
    (h : d ∈ runFinal2 fns) :
    d.kind = .useAfterFree ∨ d.kind = .escapeReturn ∨ d.kind = .escapeGlobal := by
  unfold runFinal2 at h
  rw [List.mem_flatMap] at h
  obtain ⟨fn?, hmem, hd⟩ := h
  cases fn? with
  | none => simp at hd
  | some fn =>
    dsimp only at hd
    cases hb : fn.blocks with
    | none => rw [hb] at hd; simp at hd
    | some blocks =>
      rw [hb] at hd
      dsimp only at hd
      unfold checkFunctionFinal2 secondPass at hd
      rw [List.mem_flatMap] at hd
      obtain ⟨p, hp, hd⟩ := hd
      exact sweepInstrs_kinds hd

end Arenacheck

namespace Arenacheck

/-- C1: for every return instruction, an escape-via-return diagnostic is
emitted for a returned result if and only if (a) provenance resolution traces
that result to a tracked allocation and (b) the result's static type is a
pointer/reference type; a value-typed result is never flagged even when its
provenance resolves to an allocation.  The characterization holds for the
per-instruction emission of the second pass; concretely, scenario A (direct
pointer return) yields exactly one escape-via-return diagnostic, and
scenario C (scalar field read) yields none although its provenance resolves
to the allocation. -/
theorem escapeReturnRequiresPointerType :
    (∀ (g : List VDef) (tys : List Ty) (a : List (Nat × AllocInfo)) (s : List (Nat × Nat))
        (freed : List Nat) (results : List Nat) (pos : Nat) (d : Diagnostic),
      (d ∈ instrDiags g tys a s freed (.ret results pos) ∧ d.kind = .escapeReturn)
      ↔ ∃ r ∈ results, ∃ alloc, findAllocation g a s r = some alloc
          ∧ isPointerType (typeOf tys r) = true
          ∧ d = ⟨.escapeReturn, pos, alloc.allocPos⟩)
    ∧ runFinal2 [some fnA] = [⟨.escapeReturn, 12, 11⟩]
    ∧ runFinal2 [some fnC] = []
    ∧ findAllocation fnC.defs (firstPass ((fnC.blocks).getD [])).allocations
        (firstPass ((fnC.blocks).getD [])).storesTo 3 = some ⟨0, 1, 11⟩
    ∧ isPointerType (typeOf fnC.tys 3) = false := by
  refine ⟨?_, by decide, by decide, by decide, by decide⟩
  intro g tys a s freed results pos d
  constructor
  · rintro ⟨hmem, hk⟩
    unfold instrDiags at hmem
    rw [List.mem_append] at hmem
    rcases hmem with h | h
    · have huaf := (checkUseAfterFree_eq_some (mem_uafGuard.mp h)).1
      rw [hk] at huaf
      exact absurd huaf (by decide)
    · unfold escapeDiags at h
      rw [List.mem_flatMap] at h
      obtain ⟨r, hr, hd⟩ := h
      rcases hf : findAllocation g a s r with _ | alloc
      · rw [hf] at hd; simp at hd
      · rw [hf] at hd
        dsimp only at hd
        by_cases hp : isPointerType (typeOf tys r) = true
        · rw [if_pos hp] at hd
          simp at hd
          exact ⟨r, hr, alloc, hf, hp, hd⟩
        · rw [if_neg hp] at hd; simp at hd
  · rintro ⟨r, hr, alloc, hf, hp, hd⟩
    refine ⟨?_, by rw [hd]⟩
    unfold instrDiags escapeDiags
    rw [List.mem_append]
    right
    rw [List.mem_flatMap]
    refine ⟨r, hr, ?_⟩
    rw [hf]
    dsimp only
    rw [if_pos hp]
    simp [hd]

/-- C2 counterexample: in the embedded scenario E — `r = NewArena();
r.Free(); r.Free()` — both release instructions of region 0 are recognized
by the tracker, yet the analysis emits zero diagnostics; in particular no
double-free diagnostic is emitted at the second release. -/
theorem doubleFreeScenarioNoDiagnostic :
    runFinal2 [some fnE] = []
    ∧ (firstPass ((fnE.blocks).getD [])).freeInstrs = [((0, 2), 0), ((0, 1), 0)] := by
  decide

/-- C2 (amended): the analyzer never emits a double-free diagnostic for any
input.  Release instructions are tracked only to drive use-after-free
detection; a second release of the same region produces no diagnostic of its
own. -/
theorem noDoubleFreeDiagnostics :
    ∀ (fns : List (Option Fn)) (d : Diagnostic),
      d ∈ runFinal2 fns → d.kind ≠ .doubleFree := by
  intro fns d h hk
  rcases runFinal2_kinds h with h' | h' | h' <;> rw [hk] at h' <;> exact absurd h' (by decide)

theorem noDoubleFreeDiagnostics_witness :
    (⟨.useAfterFree, 13, 11⟩ : Diagnostic).kind ≠ .doubleFree :=
  noDoubleFreeDiagnostics [some fnD] ⟨.useAfterFree, 13, 11⟩ (by decide)

/-- C3 counterexample: in `fnG` a non-pointer-typed value (value 2, a scalar
load of the allocation) is stored to a global, its provenance resolves to the
allocation, and the store IS flagged with an escape-via-global diagnostic —
contradicting the claim that value-typed stored values are never flagged. -/
theorem valueTypedGlobalStoreFlagged :
    runFinal2 [some fnG] = [⟨.escapeGlobal, 13, 11⟩]
    ∧ isPointerType (typeOf fnG.tys 2) = false
    ∧ findAllocation fnG.defs (firstPass ((fnG.blocks).getD [])).allocations
        (firstPass ((fnG.blocks).getD [])).storesTo 2 = some ⟨0, 1, 11⟩ := by
  decide

/-- C3 (amended): for every store to a global variable, an escape-via-global
diagnostic is emitted if and only if the stored value's provenance resolves
to a tracked allocation — the static type of the stored value is not
consulted (the `isPointerType` filter applies only to returns); scenario F
concretely yields one escape-via-global diagnostic at the store. -/
theorem escapeGlobalNoTypeFilter :
    (∀ (g : List VDef) (tys : List Ty) (a : List (Nat × AllocInfo)) (s : List (Nat × Nat))
        (freed : List Nat) (addr v pos : Nat) (d : Diagnostic),
      (d ∈ instrDiags g tys a s freed (.store addr v pos) ∧ d.kind = .escapeGlobal)
      ↔ (isGlobalVar g addr = true ∧ ∃ alloc, findAllocation g a s v = some alloc
          ∧ d = ⟨.escapeGlobal, pos, alloc.allocPos⟩))
    ∧ runFinal2 [some fnF] = [⟨.escapeGlobal, 12, 11⟩] := by
  refine ⟨?_, by decide⟩
  intro g tys a s freed addr v pos d
  constructor
  · rintro ⟨hmem, hk⟩
    unfold instrDiags at hmem
    rw [List.mem_append] at hmem
    rcases hmem with h | h
    · have huaf := (checkUseAfterFree_eq_some (mem_uafGuard.mp h)).1
      rw [hk] at huaf
      exact absurd huaf (by decide)
    · unfold escapeDiags at h
      dsimp only at h
      by_cases hg : isGlobalVar g addr = true
      · rw [if_pos hg] at h
        rcases hf : findAllocation g a s v with _ | alloc
        · rw [hf] at h; simp at h
        · rw [hf] at h
          simp at h
          exact ⟨hg, alloc, rfl, h⟩
      · rw [if_neg hg] at h; simp at h
  · rintro ⟨hg, alloc, hf, hd⟩
    refine ⟨?_, by rw [hd]⟩
    unfold instrDiags escapeDiags
    rw [List.mem_append]
    right
    dsimp only
    rw [if_pos hg, hf]
    simp [hd]

end Arenacheck

namespace Arenacheck

/-- Escape diagnostics have escape kinds. -/
theorem escapeDiags_kinds {g : List VDef} {tys : List Ty} {a : List (Nat × AllocInfo)}
    {s : List (Nat × Nat)} {instr : Instr} {d : Diagnostic}
    (h : d ∈ escapeDiags g tys a s instr) :
    d.kind = .escapeReturn ∨ d.kind = .escapeGlobal := by
  unfold escapeDiags at h
  cases instr with
  | ret results pos =>
    rw [List.mem_flatMap] at h
    obtain ⟨r, hr, hd⟩ := h
    rcases hf : findAllocation g a s r with _ | alloc
    · rw [hf] at hd; simp at hd
    · rw [hf] at hd
      dsimp only at hd
      by_cases hp : isPointerType (typeOf tys r) = true
      · rw [if_pos hp] at hd
        simp at hd
        subst hd
        exact Or.inl rfl
      · rw [if_neg hp] at hd; simp at hd
  | store addr v pos =>
    dsimp only at h
    by_cases hg : isGlobalVar g addr = true
    · rw [if_pos hg] at h
      rcases hf : findAllocation g a s v with _ | alloc
      · rw [hf] at h; simp at h
      · rw [hf] at h
        simp at h
        subst h
        exact Or.inr rfl
    · rw [if_neg hg] at h; simp at h
  | call v callee fnOp args pos => simp at h
  | other ops pos => simp at h

/-- C5: the analyzer is total and silently conservative: a `nil` function or a
function with a `nil` block list contributes no diagnostics and is simply
skipped, and any value whose shape is not matched by one of the Provenance
Resolver's explicit cases (including `Global`, which the `switch` does not
handle) resolves to `none` whenever it is not itself a tracked allocation.
All embedded operations are total functions by construction. -/
theorem analyzerTotalSkipsAndDefaults :
    (∀ (fns : List (Option Fn)), runFinal2 (none :: fns) = runFinal2 fns)
    ∧ (∀ (fn : Fn) (fns : List (Option Fn)), fn.blocks = none →
        runFinal2 (some fn :: fns) = runFinal2 fns)
    ∧ (∀ (g : List VDef) (a : List (Nat × AllocInfo)) (s : List (Nat × Nat))
        (fuel : Nat) (visited : List Nat) (val : Nat),
        List.lookup val a = none →
        (defOf g val = .other ∨ defOf g val = .global) →
        (findAllocationRec g a s fuel visited val).1 = none) := by
  refine ⟨?_, ?_, ?_⟩
  · intro fns
    simp [runFinal2]
  · intro fn fns hb
    simp [runFinal2, hb]
  · intro g a s fuel visited val hl hdef
    cases fuel with
    | zero => rfl
    | succ fuel =>
      by_cases hc : visited.contains val = true
      · simp only [findAllocationRec]
        rw [if_pos hc]
      · simp only [findAllocationRec]
        rw [if_neg hc, hl]
        dsimp only
        rcases hdef with h | h <;> rw [h]

theorem analyzerTotalSkipsAndDefaults_witness :
    runFinal2 [some { blocks := none, defs := [], tys := [] }] = runFinal2 []
    ∧ (findAllocationRec [] [] [] 5 [] 3).1 = none :=
  ⟨analyzerTotalSkipsAndDefaults.2.1 { blocks := none, defs := [], tys := [] } [] rfl,
   analyzerTotalSkipsAndDefaults.2.2 [] [] [] 5 [] 3 rfl (Or.inl rfl)⟩

/-- The free-tracking step of `trackCall` never changes the allocation map. -/
theorem trackCall_free_allocations (bi ii : Nat) (c : CalleeInfo) (args : List Nat)
    (s2 : TrackState) :
    (if containsSub c.fullName (".Free".toList)
        || (c.name == "Free".toList && args.length > 0) then
      match args with
      | arenaArg :: _ =>
        if s2.arenas.contains arenaArg then
          { s2 with freeInstrs := ((bi, ii), arenaArg) :: s2.freeInstrs }
        else s2
      | [] => s2
    else s2).allocations = s2.allocations := by
  split
  · cases args with
    | nil => rfl
    | cons a t =>
      dsimp only
      split
      · rfl
      · rfl
  · rfl

/-- C8: a region-allocate call whose region operand is not a tracked arena is
ignored: the allocation map is unchanged; a function whose tracking pass
records no allocations produces no diagnostics at all (so no diagnostic and
no failure arises from the ignored call); concretely, `fnH` allocates into an
untracked region parameter, records nothing and reports nothing. -/
theorem untrackedRegionAllocIgnored :
    (∀ (bi ii : Nat) (st : TrackState) (v : Nat) (c : CalleeInfo)
        (arenaArg : Nat) (rest : List Nat) (pos : Nat),
      containsSub c.fullName ("arena.NewArena".toList) = false →
      st.arenas.contains arenaArg = false →
      (trackCall bi ii st v (some c) (arenaArg :: rest) pos).allocations = st.allocations)
    ∧ (∀ (fn : Fn) (blocks : List (List Instr)),
        (firstPass blocks).allocations = [] → checkFunctionFinal2 fn blocks = [])
    ∧ runFinal2 [some fnH] = []
    ∧ (firstPass ((fnH.blocks).getD [])).allocations = [] := by
  refine ⟨?_, ?_, by decide, by decide⟩
  · intro bi ii st v c arenaArg rest pos hnew hcont
    have hnew' : ¬(containsSub c.fullName ("arena.NewArena".toList) = true) := by
      rw [hnew]; simp
    have hcont' : ¬(st.arenas.contains arenaArg = true) := by
      rw [hcont]; simp
    unfold trackCall
    dsimp only
    rw [if_neg hnew']
    rw [trackCall_free_allocations]
    split <;> rfl
  · intro fn blocks hempty
    unfold checkFunctionFinal2 secondPass
    rw [hempty]
    apply List.flatMap_eq_nil_iff.mpr
    intro p hp
    have hsweep : ∀ (instrs : List Instr) (ii : Nat) (freed : List Nat),
        sweepInstrs fn.defs fn.tys [] (firstPass blocks).storesTo
          (firstPass blocks).freeInstrs p.1 ii freed instrs = [] := by
      intro instrs
      induction instrs with
      | nil => intro ii freed; rfl
      | cons instr rest ih =>
        intro ii freed
        simp only [sweepInstrs]
        rw [ih]
        have hid : ∀ (freed2 : List Nat),
            instrDiags fn.defs fn.tys [] (firstPass blocks).storesTo freed2 instr = [] := by
          intro freed2
          unfold instrDiags
          have huaf : checkUseAfterFree fn.defs [] (firstPass blocks).storesTo freed2 instr
              = none := by
            unfold checkUseAfterFree
            rw [List.findSome?_eq_none_iff]
            intro op hop
            unfold uafOperandDiag findAllocation
            rw [findAllocationRec_nil_allocs]
          have hesc : escapeDiags fn.defs fn.tys [] (firstPass blocks).storesTo instr = [] := by
            unfold escapeDiags
            cases instr with
            | ret results pos =>
              apply List.flatMap_eq_nil_iff.mpr
              intro r hr
              show (match findAllocation fn.defs [] (firstPass blocks).storesTo r with
                | some alloc => if isPointerType (typeOf fn.tys r) = true then
                    [({ kind := .escapeReturn, pos := pos, allocPos := alloc.allocPos } :
                      Diagnostic)] else []
                | none => []) = []
              have : findAllocation fn.defs [] (firstPass blocks).storesTo r = none := by
                unfold findAllocation
                rw [findAllocationRec_nil_allocs]
              rw [this]
            | store addr v pos =>
              dsimp only
              split
              · have : findAllocation fn.defs [] (firstPass blocks).storesTo v = none := by
                  unfold findAllocation
                  rw [findAllocationRec_nil_allocs]
                rw [this]
              · rfl
            | call v callee fnOp args pos => rfl
            | other ops pos => rfl
          rw [hesc, huaf]
          split <;> rfl
        rw [hid]
        rfl
    exact hsweep p.2 0 []

theorem untrackedRegionAllocIgnored_witness :
    (trackCall 0 0 ⟨[], [], [], []⟩ 1 (some cNew) [0] 11).allocations = [] :=
  untrackedRegionAllocIgnored.1 0 0 ⟨[], [], [], []⟩ 1 cNew 0 [] 11 (by decide) (by decide)

end Arenacheck

namespace Arenacheck

/-- C9: the use-after-free sweep reports at most one diagnostic per examined
instruction — the per-instruction diagnostics contain at most one
use-after-free entry — and examination stops at the first offending operand:
whatever operands follow the first offender, the reported diagnostic is the
one produced by that first offender. -/
theorem uafOnePerInstruction :
    (∀ (g : List VDef) (tys : List Ty) (a : List (Nat × AllocInfo)) (s : List (Nat × Nat))
        (freed : List Nat) (instr : Instr),
      ((instrDiags g tys a s freed instr).filter
        (fun d => d.kind == DiagKind.useAfterFree)).length ≤ 1)
    ∧ (∀ (g : List VDef) (a : List (Nat × AllocInfo)) (s : List (Nat × Nat))
        (freed : List Nat) (instr : Instr) (pre : List Nat) (op : Nat) (post : List Nat)
        (d : Diagnostic),
      instr.operands = pre ++ op :: post →
      (∀ o ∈ pre, uafOperandDiag g a s freed instr.pos o = none) →
      uafOperandDiag g a s freed instr.pos op = some d →
      checkUseAfterFree g a s freed instr = some d) := by
  constructor
  · intro g tys a s freed instr
    unfold instrDiags
    rw [List.filter_append, List.length_append]
    have h2 : ((escapeDiags g tys a s instr).filter
        (fun d => d.kind == DiagKind.useAfterFree)).length = 0 := by
      rw [List.length_eq_zero, List.filter_eq_nil_iff]
      intro d hd
      rcases escapeDiags_kinds hd with h | h <;> simp [h]
    have h1 : ((if freed.length > 0 then (checkUseAfterFree g a s freed instr).toList
        else []).filter (fun d => d.kind == DiagKind.useAfterFree)).length ≤ 1 := by
      split
      · cases checkUseAfterFree g a s freed instr with
        | none => simp
        | some d =>
          rcases List.length_filter_le (fun d => d.kind == DiagKind.useAfterFree) [d]
            with h
          simpa using h
      · simp
    omega
  · intro g a s freed instr pre op post d hops hpre hop
    unfold checkUseAfterFree
    rw [hops]
    exact findSome?_eq_some_of_mem rfl hpre hop

theorem uafOnePerInstruction_witness :
    checkUseAfterFree fnW.defs (firstPass ((fnW.blocks).getD [])).allocations
      (firstPass ((fnW.blocks).getD [])).storesTo [0] (.other [7, 1, 1] 13)
      = some ⟨.useAfterFree, 13, 11⟩ :=
  uafOnePerInstruction.2 fnW.defs (firstPass ((fnW.blocks).getD [])).allocations
    (firstPass ((fnW.blocks).getD [])).storesTo [0] (.other [7, 1, 1] 13)
    [7] 1 [1] ⟨.useAfterFree, 13, 11⟩ (by decide) (by decide) (by decide)

end Arenacheck

namespace Arenacheck

/-- C6: provenance resolution terminates in bounded steps on every input,
including cyclic value graphs: (1) the recursion is fuel-insensitive once the
fuel covers the number of unvisited in-range values — `g.length + 1` frames
always suffice, which is exactly the bound `findAllocation` supplies — since
every value is marked visited before its operands are explored; (2) a
revisited value immediately resolves to `none`; (3) a two-phi cycle that
reaches no tracked allocation resolves to `none`, and the cyclic program
`fnCyc`, which returns such a merge, is not reported as an escape. -/
theorem resolutionTerminates :
    (∀ (g : List VDef) (a : List (Nat × AllocInfo)) (s : List (Nat × Nat))
        (visited : List Nat) (val : Nat) (fuel₁ fuel₂ : Nat),
      visited.Nodup →
      g.length + 1 ≤ fuel₁ + inRangeCount g visited →
      g.length + 1 ≤ fuel₂ + inRangeCount g visited →
      findAllocationRec g a s fuel₁ visited val = findAllocationRec g a s fuel₂ visited val)
    ∧ (∀ (g : List VDef) (a : List (Nat × AllocInfo)) (s : List (Nat × Nat))
        (fuel : Nat) (visited : List Nat) (val : Nat), val ∈ visited →
      findAllocationRec g a s fuel visited val = (none, visited))
    ∧ findAllocation [VDef.phi [1], VDef.phi [0]] [] [] 0 = none
    ∧ runFinal2 [some fnCyc] = [] := by
  refine ⟨?_, ?_, by decide, by decide⟩
  · intro g a s visited val fuel₁ fuel₂ hnd h1 h2
    exact findAllocationRec_fuel_congr g a s fuel₁ fuel₂ visited val hnd h1 h2
  · intro g a s fuel visited val hmem
    cases fuel with
    | zero => rfl
    | succ fuel =>
      have hc : visited.contains val = true := by simpa using hmem
      simp only [findAllocationRec]
      rw [if_pos hc]

theorem resolutionTerminates_witness :
    findAllocationRec [] [] [] 1 [] 0 = findAllocationRec [] [] [] 2 [] 0
    ∧ findAllocationRec [] [] [] 7 [5] 5 = (none, [5]) :=
  ⟨resolutionTerminates.1 [] [] [] [] 0 1 2 List.nodup_nil (by decide) (by decide),
   resolutionTerminates.2.1 [] [] [] 7 [5] 5 (by decide)⟩

/-- If an invariant on the visited set is preserved by `none`-returning steps
and guarantees success at edge `e`, then the phi fold over any edge list
containing `e` resolves to some allocation. -/
theorem phiFold_isSome {f : List Nat → Nat → Option AllocInfo × List Nat}
    {P : List Nat → Prop}
    (hstep : ∀ vis e2, P vis → (f vis e2).1 = none → P (f vis e2).2)
    {e : Nat}
    (hsucc : ∀ vis, P vis → ((f vis e).1).isSome = true) :
    ∀ (pre post : List Nat) (vis0 : List Nat), P vis0 →
      (((pre ++ e :: post).foldl (phiStep f) (none, vis0)).1).isSome = true := by
  intro pre post vis0 h0
  rw [List.foldl_append]
  have hQ := @phiFold_invariant
    f (fun r => r.1 = none → P r.2)
    (fun vis e2 hP hnone => hstep vis e2 (hP rfl) hnone)
    pre (none, vis0) (fun _ => h0)
  rcases hacc : pre.foldl (phiStep f) (none, vis0) with ⟨o, vis1⟩
  rw [hacc] at hQ
  cases o with
  | some x =>
    rw [List.foldl_cons]
    show (((e :: post).tail.foldl (phiStep f) (phiStep f (some x, vis1) e)).1).isSome = true
    rw [show phiStep f (some x, vis1) e = (some x, vis1) from rfl]
    rw [show ((e :: post).tail) = post from rfl]
    rw [phiFold_some]
    rfl
  | none =>
    rw [List.foldl_cons]
    have hP1 : P vis1 := hQ rfl
    have hs := hsucc vis1 hP1
    rcases hfe : f vis1 e with ⟨o2, vis2⟩
    rw [hfe] at hs
    cases o2 with
    | none => simp at hs
    | some x =>
      rw [show phiStep f (none, vis1) e = f vis1 e from rfl, hfe]
      rw [phiFold_some]
      rfl

/-- A merge of a literal nil (value 2) with a value merely DERIVED from the
allocation: value 4 is a `FieldAddr` into the allocation value 1, and the phi
value 3 has edges `[2, 4]`; the merge is returned with pointer type. -/
def fnP2 : Fn :=
  { blocks := some [[ .call 0 (some cNewArena) 100 [] 10,
                      .call 1 (some cNew) 101 [0] 11 ],
                    [ .other [] 20 ],
                    [ .other [1] 28,
                      .other [2, 4] 29,
                      .ret [3] 31 ]],
    defs := [.other, .other, .other, .phi [2, 4], .fieldAddr 1],
    tys := [.basic, .pointer, .pointer, .pointer, .pointer] }

/-- On a phi value that is not itself a tracked allocation, one step of the
resolver is exactly the ordered fold of the recursive calls over the incoming
edges, threading the visited set and stopping at the first resolved
allocation. -/
theorem findAllocationRec_phi_unfold (g : List VDef) (a : List (Nat × AllocInfo))
    (s : List (Nat × Nat)) (fuel : Nat) (visited : List Nat) (val : Nat)
    (edges : List Nat) (hphi : defOf g val = .phi edges)
    (hc : visited.contains val = false) (hlv : List.lookup val a = none) :
    findAllocationRec g a s (fuel + 1) visited val
      = edges.foldl (phiStep (findAllocationRec g a s fuel)) (none, val :: visited) := by
  have hc2 : ¬(visited.contains val = true) := by rw [hc]; simp
  simp only [findAllocationRec]
  rw [if_neg hc2, hlv]
  dsimp only
  rw [hphi]
  rfl

/-- C7: when the resolver reaches a phi value it recurses into every incoming
edge in order and returns the first allocation resolved on any edge:
(1) resolution of a phi (that is not itself a tracked allocation) IS the
ordered fold of the recursive resolver over its edges with the visited set
threaded through; (2) if every earlier edge resolved to nothing and the
recursive resolver — following any derivation chain, not only a direct
allocation — resolves edge `e` to `alloc`, the phi resolves to exactly that
`alloc`, whatever edges follow; and concretely a nil-vs-allocation merge
(`fnP`) and a nil-vs-allocation-derived merge (`fnP2`, whose flagged edge is
a `FieldAddr` of the allocation and not a tracked allocation itself) are both
flagged at the return that carries them. -/
theorem phiFirstAllocation :
    (∀ (g : List VDef) (a : List (Nat × AllocInfo)) (s : List (Nat × Nat))
        (fuel : Nat) (visited : List Nat) (val : Nat) (edges : List Nat),
      defOf g val = .phi edges →
      visited.contains val = false →
      List.lookup val a = none →
      findAllocationRec g a s (fuel + 1) visited val
        = edges.foldl (phiStep (findAllocationRec g a s fuel)) (none, val :: visited))
    ∧ (∀ (g : List VDef) (a : List (Nat × AllocInfo)) (s : List (Nat × Nat))
        (fuel : Nat) (visited : List Nat) (val : Nat) (pre post : List Nat)
        (e : Nat) (alloc : AllocInfo) (vis1 : List Nat),
      defOf g val = .phi (pre ++ e :: post) →
      visited.contains val = false →
      List.lookup val a = none →
      pre.foldl (phiStep (findAllocationRec g a s fuel)) (none, val :: visited)
        = (none, vis1) →
      (findAllocationRec g a s fuel vis1 e).1 = some alloc →
      (findAllocationRec g a s (fuel + 1) visited val).1 = some alloc)
    ∧ runFinal2 [some fnP] = [⟨.escapeReturn, 30, 11⟩]
    ∧ runFinal2 [some fnP2] = [⟨.escapeReturn, 31, 11⟩] := by
  refine ⟨findAllocationRec_phi_unfold, ?_, by decide, by decide⟩
  intro g a s fuel visited val pre post e alloc vis1 hphi hc hlv hpre he
  rw [findAllocationRec_phi_unfold g a s fuel visited val (pre ++ e :: post) hphi hc hlv]
  rw [List.foldl_append, hpre, List.foldl_cons]
  rcases hres : findAllocationRec g a s fuel vis1 e with ⟨o, vis2⟩
  rw [hres] at he
  dsimp only at he
  subst he
  rw [show phiStep (findAllocationRec g a s fuel) (none, vis1) e
      = findAllocationRec g a s fuel vis1 e from rfl, hres]
  rw [phiFold_some]

theorem phiFirstAllocation_witness :
    (findAllocationRec fnP2.defs [(1, ⟨0, 1, 11⟩)] [] 5 [] 3).1 = some ⟨0, 1, 11⟩ :=
  phiFirstAllocation.2.1 fnP2.defs [(1, ⟨0, 1, 11⟩)] [] 4 [] 3 [2] [] 4 ⟨0, 1, 11⟩ [2, 3]
    (by decide) (by decide) (by decide) (by decide) (by decide)

end Arenacheck

namespace Arenacheck

/-- The set of arenas freed by instructions of block `bi` up to and including
instruction index `ii` — the reference description of the per-block freed-set
state. -/
def freedUpTo (fi : List ((Nat × Nat) × Nat)) (bi ii : Nat) : List Nat :=
  (List.range (ii + 1)).filterMap fun jj => List.lookup (bi, jj) fi

theorem mem_freedUpTo {fi : List ((Nat × Nat) × Nat)} {bi ii x : Nat} :
    x ∈ freedUpTo fi bi ii ↔ ∃ jj, jj < ii + 1 ∧ List.lookup (bi, jj) fi = some x := by
  unfold freedUpTo
  rw [List.mem_filterMap]
  constructor
  · rintro ⟨jj, hjj, hl⟩
    exact ⟨jj, by simpa using hjj, hl⟩
  · rintro ⟨jj, hjj, hl⟩
    exact ⟨jj, by simpa using hjj, hl⟩

/-- The function `checkUseAfterFree` depends on the freed set only through membership. -/
theorem checkUseAfterFree_congr {g : List VDef} {a : List (Nat × AllocInfo)}
    {s : List (Nat × Nat)} {freed₁ freed₂ : List Nat} {instr : Instr}
    (h : ∀ x, x ∈ freed₁ ↔ x ∈ freed₂) :
    checkUseAfterFree g a s freed₁ instr = checkUseAfterFree g a s freed₂ instr := by
  unfold checkUseAfterFree
  congr 1
  funext o
  unfold uafOperandDiag
  cases hf : findAllocation g a s o with
  | none => rfl
  | some alloc =>
    dsimp only
    have hiff : (freed₁.contains alloc.arena = true) ↔ (freed₂.contains alloc.arena = true) := by
      constructor <;> intro hx
      · have hm : alloc.arena ∈ freed₁ := by simpa using hx
        simpa using (h alloc.arena).mp hm
      · have hm : alloc.arena ∈ freed₂ := by simpa using hx
        simpa using (h alloc.arena).mpr hm
    exact if_congr hiff rfl rfl

/-- A use-after-free diagnostic belongs to an instruction's output exactly
when `checkUseAfterFree` produces it (the `freedArenas` non-emptiness guard
is implied: an empty freed set can produce no diagnostic). -/
theorem mem_instrDiags_uaf {g : List VDef} {tys : List Ty} {a : List (Nat × AllocInfo)}
    {s : List (Nat × Nat)} {freed : List Nat} {instr : Instr} {d : Diagnostic}
    (hk : d.kind = .useAfterFree) :
    d ∈ instrDiags g tys a s freed instr ↔ checkUseAfterFree g a s freed instr = some d := by
  unfold instrDiags
  rw [List.mem_append]
  constructor
  · rintro (h | h)
    · exact mem_uafGuard.mp h
    · rcases escapeDiags_kinds h with h' | h' <;> rw [hk] at h' <;> exact absurd h' (by decide)
  · intro h
    exact Or.inl (mem_uafGuard.mpr h)

/-- One step of the block sweep, characterized against the reference freed
set. -/
theorem sweep_cons_char {g : List VDef} {tys : List Ty} {a : List (Nat × AllocInfo)}
    {s : List (Nat × Nat)} {fi : List ((Nat × Nat) × Nat)} {bi ii0 : Nat}
    {freed2 : List Nat} {instr : Instr} {rest : List Instr} {d : Diagnostic}
    (hinv2 : ∀ x, x ∈ freed2 ↔ ∃ jj, jj < ii0 + 1 ∧ List.lookup (bi, jj) fi = some x)
    (ihres : ∀ d2 : Diagnostic,
      (d2 ∈ sweepInstrs g tys a s fi bi (ii0 + 1) freed2 rest ∧ d2.kind = .useAfterFree)
      ↔ ∃ k instr2, rest.get? k = some instr2
          ∧ checkUseAfterFree g a s (freedUpTo fi bi (ii0 + 1 + k)) instr2 = some d2) :
    ((d ∈ instrDiags g tys a s freed2 instr
        ++ sweepInstrs g tys a s fi bi (ii0 + 1) freed2 rest ∧ d.kind = .useAfterFree)
     ↔ ∃ k instr2, (instr :: rest).get? k = some instr2
         ∧ checkUseAfterFree g a s (freedUpTo fi bi (ii0 + k)) instr2 = some d) := by
  have hmemUp : ∀ x, x ∈ freed2 ↔ x ∈ freedUpTo fi bi ii0 :=
    fun x => (hinv2 x).trans mem_freedUpTo.symm
  have hcheck : checkUseAfterFree g a s freed2 instr
      = checkUseAfterFree g a s (freedUpTo fi bi ii0) instr :=
    checkUseAfterFree_congr hmemUp
  constructor
  · rintro ⟨hmem, hk⟩
    rw [List.mem_append] at hmem
    rcases hmem with h | h
    · refine ⟨0, instr, rfl, ?_⟩
      rw [Nat.add_zero]
      rw [← hcheck]
      exact (mem_instrDiags_uaf hk).mp h
    · obtain ⟨k, instr2, hget, hch⟩ := (ihres d).mp ⟨h, hk⟩
      refine ⟨k + 1, instr2, by simpa using hget, ?_⟩
      rw [show ii0 + (k + 1) = ii0 + 1 + k by omega]
      exact hch
  · rintro ⟨k, instr2, hget, hch⟩
    cases k with
    | zero =>
      rw [Nat.add_zero] at hch
      simp only [List.get?_cons_zero, Option.some.injEq] at hget
      subst hget
      have hkind := (checkUseAfterFree_eq_some hch).1
      have hch0 : checkUseAfterFree g a s freed2 instr = some d := by
        rw [hcheck]; exact hch
      exact ⟨List.mem_append.mpr (Or.inl ((mem_instrDiags_uaf hkind).mpr hch0)), hkind⟩
    | succ k =>
      have hch2 : checkUseAfterFree g a s (freedUpTo fi bi (ii0 + 1 + k)) instr2 = some d := by
        rw [show ii0 + 1 + k = ii0 + (k + 1) by omega]
        exact hch
      have hres := (ihres d).mpr ⟨k, instr2, by simpa using hget, hch2⟩
      exact ⟨List.mem_append.mpr (Or.inr hres.1), hres.2⟩

/-- The block sweep's use-after-free diagnostics, characterized by the freed
set accumulated from the start of the same block only. -/
theorem sweepInstrs_uaf_char {g : List VDef} {tys : List Ty} {a : List (Nat × AllocInfo)}
    {s : List (Nat × Nat)} {fi : List ((Nat × Nat) × Nat)} {bi : Nat} :
    ∀ (instrs : List Instr) (ii0 : Nat) (freed0 : List Nat) (d : Diagnostic),
      (∀ x, x ∈ freed0 ↔ ∃ jj, jj < ii0 ∧ List.lookup (bi, jj) fi = some x) →
      ((d ∈ sweepInstrs g tys a s fi bi ii0 freed0 instrs ∧ d.kind = .useAfterFree)
       ↔ ∃ k instr, instrs.get? k = some instr
           ∧ checkUseAfterFree g a s (freedUpTo fi bi (ii0 + k)) instr = some d) := by
  intro instrs
  induction instrs with
  | nil =>
    intro ii0 freed0 d hinv
    simp [sweepInstrs]
  | cons instr rest ih =>
    intro ii0 freed0 d hinv
    simp only [sweepInstrs]
    cases hfi : List.lookup (bi, ii0) fi with
    | none =>
      have hinv2 : ∀ x, x ∈ freed0 ↔ ∃ jj, jj < ii0 + 1 ∧ List.lookup (bi, jj) fi = some x := by
        intro x
        rw [hinv x]
        constructor
        · rintro ⟨jj, hjj, hl⟩
          exact ⟨jj, by omega, hl⟩
        · rintro ⟨jj, hjj, hl⟩
          refine ⟨jj, ?_, hl⟩
          rcases Nat.lt_succ_iff_lt_or_eq.mp hjj with h | h
          · exact h
          · subst h
            rw [hfi] at hl
            exact absurd hl (by simp)
      exact sweep_cons_char hinv2 (fun d2 => ih (ii0 + 1) freed0 d2 hinv2)
    | some arena =>
      have hinv2 : ∀ x, x ∈ arena :: freed0
          ↔ ∃ jj, jj < ii0 + 1 ∧ List.lookup (bi, jj) fi = some x := by
        intro x
        rw [List.mem_cons, hinv x]
        constructor
        · rintro (h | ⟨jj, hjj, hl⟩)
          · subst h
            exact ⟨ii0, by omega, hfi⟩
          · exact ⟨jj, by omega, hl⟩
        · rintro ⟨jj, hjj, hl⟩
          rcases Nat.lt_succ_iff_lt_or_eq.mp hjj with h | h
          · exact Or.inr ⟨jj, h, hl⟩
          · subst h
            rw [hfi] at hl
            exact Or.inl (by simpa using hl.symm)
      exact sweep_cons_char hinv2 (fun d2 => ih (ii0 + 1) (arena :: freed0) d2 hinv2)

/-- C4: the freed-region set is empty at every block entry and grows only
with release instructions inside that block; a use-after-free diagnostic is
produced by the sweep of a block exactly when some instruction of that block,
with the freed set accumulated from the block's own start up to that
instruction, reports it — so a release in a predecessor block never yields a
diagnostic in a successor block.  Concretely the cross-block program `fnX`
(release in block 0, use in block 1) yields no diagnostics, while the
straight-line scenario D yields exactly one use-after-free diagnostic. -/
theorem uafBlockLocal :
    (∀ (g : List VDef) (tys : List Ty) (a : List (Nat × AllocInfo)) (s : List (Nat × Nat))
        (fi : List ((Nat × Nat) × Nat)) (bi : Nat) (instrs : List Instr) (d : Diagnostic),
      (d ∈ sweepInstrs g tys a s fi bi 0 [] instrs ∧ d.kind = .useAfterFree)
      ↔ ∃ ii instr, instrs.get? ii = some instr
          ∧ checkUseAfterFree g a s (freedUpTo fi bi ii) instr = some d)
    ∧ (∀ (g : List VDef) (a : List (Nat × AllocInfo)) (s : List (Nat × Nat))
        (freed : List Nat) (instr : Instr),
      (∃ d, checkUseAfterFree g a s freed instr = some d)
      ↔ ∃ op ∈ instr.operands, ∃ alloc, findAllocation g a s op = some alloc
          ∧ freed.contains alloc.arena = true)
    ∧ runFinal2 [some fnX] = []
    ∧ runFinal2 [some fnD] = [⟨.useAfterFree, 13, 11⟩] := by
  refine ⟨?_, ?_, by decide, by decide⟩
  · intro g tys a s fi bi instrs d
    have h := @sweepInstrs_uaf_char g tys a s fi bi instrs 0 [] d (by simp)
    simpa using h
  · intro g a s freed instr
    constructor
    · rintro ⟨d, hd⟩
      obtain ⟨_, _, op, hop, alloc, hf, hc, _⟩ := checkUseAfterFree_eq_some hd
      exact ⟨op, hop, alloc, hf, hc⟩
    · rintro ⟨op, hop, alloc, hf, hc⟩
      cases hres : checkUseAfterFree g a s freed instr with
      | some d => exact ⟨d, rfl⟩
      | none =>
        exfalso
        unfold checkUseAfterFree at hres
        rw [List.findSome?_eq_none_iff] at hres
        have hnone := hres op hop
        have hsome : uafOperandDiag g a s freed instr.pos op
            = some ⟨.useAfterFree, instr.pos, alloc.allocPos⟩ :=
          uafOperandDiag_eq_some.mpr ⟨alloc, hf, hc, rfl⟩
        rw [hnone] at hsome
        exact absurd hsome (by simp)

end Arenacheck

namespace Arenacheck

/-- One step of the reference "value of the last store to `addr`" fold. -/
def storeUpd (addr : Nat) (acc : Option Nat) (instr : Instr) : Option Nat :=
  match instr with
  | .store a v _ => if a == addr then some v else acc
  | _ => acc

/-- Reference description of the store map: the value of the last store to
`addr` in block-and-instruction iteration order over the whole function. -/
def lastStoreVal (blocks : List (List Instr)) (addr : Nat) : Option Nat :=
  blocks.flatten.foldl (storeUpd addr) none

/-- The function `trackCall` never touches the store map. -/
theorem trackCall_storesTo (bi ii : Nat) (st : TrackState) (v : Nat)
    (callee : Option CalleeInfo) (args : List Nat) (pos : Nat) :
    (trackCall bi ii st v callee args pos).storesTo = st.storesTo := by
  unfold trackCall
  cases callee with
  | none => rfl
  | some c =>
    dsimp only
    repeat' split
    all_goals rfl

theorem trackInstr_storesTo_lookup (bi ii : Nat) (st : TrackState) (instr : Instr)
    (addr : Nat) :
    List.lookup addr (trackInstr bi ii st instr).storesTo
      = storeUpd addr (List.lookup addr st.storesTo) instr := by
  cases instr with
  | call v callee fnOp args pos =>
    unfold trackInstr
    rw [trackCall_storesTo]
    rfl
  | store a v pos =>
    by_cases h : a = addr
    · subst h
      simp [trackInstr, storeUpd, List.lookup]
    · have h2 : (addr == a) = false := by simp; omega
      simp [trackInstr, storeUpd, List.lookup, h, h2]
  | ret results pos => rfl
  | other ops pos => rfl

theorem trackFold_storesTo_lookup (bi : Nat) :
    ∀ (instrs : List Instr) (n : Nat) (st : TrackState) (addr : Nat),
      List.lookup addr
        (((instrs.enumFrom n).foldl (fun s p => trackInstr bi p.1 s p.2) st).storesTo)
      = instrs.foldl (storeUpd addr) (List.lookup addr st.storesTo) := by
  intro instrs
  induction instrs with
  | nil => intro n st addr; rfl
  | cons i rest ih =>
    intro n st addr
    rw [show (i :: rest).enumFrom n = (n, i) :: rest.enumFrom (n + 1) from rfl]
    rw [List.foldl_cons, ih (n + 1) (trackInstr bi n st i) addr, List.foldl_cons,
      trackInstr_storesTo_lookup]

theorem trackBlocks_storesTo_lookup :
    ∀ (blocks : List (List Instr)) (n : Nat) (st : TrackState) (addr : Nat),
      List.lookup addr
        (((blocks.enumFrom n).foldl (fun s p => trackBlock p.1 s p.2) st).storesTo)
      = blocks.foldl (fun acc b => b.foldl (storeUpd addr) acc)
          (List.lookup addr st.storesTo) := by
  intro blocks
  induction blocks with
  | nil => intro n st addr; rfl
  | cons b rest ih =>
    intro n st addr
    rw [show (b :: rest).enumFrom n = (n, b) :: rest.enumFrom (n + 1) from rfl]
    rw [List.foldl_cons, ih (n + 1), List.foldl_cons]
    congr 1
    exact trackFold_storesTo_lookup n b 0 st addr

/-- C10: the store map built by the first pass retains, for each address,
exactly the value of the last store to that address in block-and-instruction
iteration order; load-after-store resolution therefore consults only that
final store, even when it occurs after the load in program order, and earlier
stored values are invisible.  Concretely: in `fnSa` the allocation is stored
first and overwritten by a later (post-load) store, so the returned load
resolves to nothing and no diagnostic is emitted; in `fnSb` the final store
carries the allocation, so the same load is flagged. -/
theorem storeMapLastWins :
    (∀ (blocks : List (List Instr)) (addr : Nat),
      List.lookup addr (firstPass blocks).storesTo = lastStoreVal blocks addr)
    ∧ runFinal2 [some fnSa] = []
    ∧ runFinal2 [some fnSb] = [⟨.escapeReturn, 21, 11⟩]
    ∧ List.lookup 5 (firstPass ((fnSa.blocks).getD [])).storesTo = some 4
    ∧ findAllocation fnSa.defs (firstPass ((fnSa.blocks).getD [])).allocations
        (firstPass ((fnSa.blocks).getD [])).storesTo 6 = none := by
  refine ⟨?_, by decide, by decide, by decide, by decide⟩
  intro blocks addr
  unfold firstPass lastStoreVal
  rw [show blocks.enum = blocks.enumFrom 0 from rfl]
  rw [trackBlocks_storesTo_lookup blocks 0 ⟨[], [], [], []⟩ addr]
  rw [List.foldl_flatten]
  rfl

end Arenacheck
